import Mathlib

/-!
Verification development for the FF2025 fantasy-draft dashboard (`src/app.py`).

The program is a single-file Streamlit app: it loads a player-rankings table
(uploaded CSV or a GitHub fallback), fetches the pick list of a Sleeper draft
over HTTP, marks drafted players in the rankings table, and renders the
available players grouped by position.

The embedding below models pandas DataFrames as a list of column names plus a
list of rows, where each row is a list of dynamically tagged values, and models
each function of `app.py` as a pure Lean function.  HTTP and CSV parsing are
external collaborators: a fetch/parse attempt is passed in as an
`Except String _` value, with `Except.error` standing for any raised exception,
which is exactly what the `try/except` blocks in `app.py` branch on.  Streamlit
message calls (`st.error` / `st.warning` / `st.info`) are modeled as message
values returned alongside the data; visual styling and layout are out of scope.
-/

/-- A dynamically typed cell value, modeling the scalar values that appear in
the app's pandas DataFrames (strings, integers, booleans, and NaN/None). -/
inductive Value where
  | str (s : String)
  | int (n : Int)
  | bool (b : Bool)
  | none
deriving DecidableEq

/-- A user-visible Streamlit message: `st.error`, `st.warning` or `st.info`. -/
inductive Msg where
  | error (s : String)
  | warning (s : String)
  | info (s : String)
deriving DecidableEq

/-- A pandas DataFrame: ordered column names and rows of cell values, each row
aligned positionally with the column list. -/
structure DataFrame where
  cols : List String
  rows : List (List Value)
deriving DecidableEq

/-- `df.empty` in pandas: true when either axis has length zero. -/
def DataFrame.isEmpty (df : DataFrame) : Bool :=
  df.rows.isEmpty || df.cols.isEmpty

/-- Well-formedness of the embedding: every row has one cell per column. -/
def DataFrame.wf (df : DataFrame) : Prop :=
  ∀ r ∈ df.rows, r.length = df.cols.length

/-- Index of the first column with the given name, modeling pandas column
lookup by label. -/
def colIdx : List String → String → Option Nat
  | [], _ => Option.none
  | c :: cs, name => if c == name then some 0 else (colIdx cs name).map (· + 1)

/-- The cell of row `r` in the column named `name`, given the column list. -/
def rowCell (cols : List String) (r : List Value) (name : String) : Option Value :=
  (colIdx cols name).bind (fun j => r[j]?)

/-- The cell of row `r` of `df` in the column named `name`. -/
def DataFrame.cellR (df : DataFrame) (r : List Value) (name : String) : Option Value :=
  rowCell df.cols r name

/-- The cell at row index `i`, column `name` of `df`. -/
def DataFrame.cell (df : DataFrame) (i : Nat) (name : String) : Option Value :=
  (df.rows[i]?).bind (fun r => rowCell df.cols r name)

/-- Column assignment `df[name] = vals`: overwrite the column if it exists,
otherwise append it on the right, one value per row. -/
def DataFrame.setCol (df : DataFrame) (name : String) (vals : List Value) : DataFrame :=
  match colIdx df.cols name with
  | some j => ⟨df.cols, df.rows.zipWith (fun r v => r.set j v) vals⟩
  | Option.none => ⟨df.cols ++ [name], df.rows.zipWith (fun r v => r ++ [v]) vals⟩

/-- Column selection `df[cs]`: reorder/project the columns named in `cs`. -/
def DataFrame.selectCols (df : DataFrame) (cs : List String) : DataFrame :=
  ⟨cs, df.rows.map (fun r => cs.map (fun c => (rowCell df.cols r c).getD Value.none))⟩

/-- ASCII lowercasing of one character, as `str.lower` acts on ASCII. -/
def lowerChar (c : Char) : Char :=
  if 65 ≤ c.toNat ∧ c.toNat ≤ 90 then Char.ofNat (c.toNat + 32) else c

/-- ASCII uppercasing of one character, as `str.upper` acts on ASCII. -/
def upperChar (c : Char) : Char :=
  if 97 ≤ c.toNat ∧ c.toNat ≤ 122 then Char.ofNat (c.toNat - 32) else c

/-- Python `str.strip()` on a character list: drop whitespace at both ends. -/
def pyStrip (l : List Char) : List Char :=
  ((l.dropWhile Char.isWhitespace).reverse.dropWhile Char.isWhitespace).reverse

/-- Python `str.strip()`. -/
def pyStripStr (s : String) : String := ⟨pyStrip s.data⟩

/-- Python `s.lower().strip()` as used on column headers in `normalize_columns`. -/
def lowerTrim (s : String) : String := ⟨pyStrip (s.data.map lowerChar)⟩

/-- Python `str.upper()`. -/
def upperStr (s : String) : String := ⟨s.data.map upperChar⟩

/-- Python `str(v)` on a cell value; `str` of NaN is `"nan"`. -/
def valuePyStr : Value → String
  | Value.str s => s
  | Value.int n => toString n
  | Value.bool b => if b then "True" else "False"
  | Value.none => "nan"

/-- `REQUIRED_COLS` from `app.py` (a Python set there; listed here in a fixed
order). -/
def REQUIRED_COLS : List String := ["Rank", "Player", "Position", "NFL Team"]

/-- The `candidates` dict of `normalize_columns`: lowercased header synonym to
required column name, in source order. -/
def candidates : List (String × String) :=
  [("rank", "Rank"), ("overall", "Rank"), ("ecr", "Rank"),
   ("player", "Player"), ("name", "Player"),
   ("position", "Position"), ("pos", "Position"),
   ("nfl team", "NFL Team"), ("team", "NFL Team"), ("nfl", "NFL Team")]

/-- The `lower_map` dict comprehension of `normalize_columns`: maps a lowered,
stripped header to the column bearing it; a later column overrides an earlier
one with the same lowered name, hence the lookup scans the reversed list. -/
def lowerMapLookup (cols : List String) (k : String) : Option String :=
  cols.reverse.find? (fun c => lowerTrim c == k)

/-- The `rename_map` of `normalize_columns`: original column name paired with
the required name it is renamed to. -/
def renameMap (cols : List String) : List (String × String) :=
  candidates.filterMap (fun kt => (lowerMapLookup cols kt.1).map (fun c => (c, kt.2)))

/-- `df.rename(columns=rename_map)` applied to the column list. -/
def applyRename (cols : List String) : List String :=
  cols.map (fun c =>
    match (renameMap cols).find? (fun e => e.1 == c) with
    | some e => e.2
    | Option.none => c)

/-- `normalize_columns` from `app.py`: on a non-empty frame, rename synonym
headers to the required names, assign a sequential `Rank` column if none
exists, warn if required columns are still missing, and ensure a `Drafted`
column exists.  The warning text elides the Python-formatted column list. -/
def normalize_columns (df : DataFrame) : DataFrame × List Msg :=
  if df.isEmpty then (df, [])
  else
    let df1 : DataFrame := ⟨applyRename df.cols, df.rows⟩
    let df2 := if df1.cols.contains "Rank" then df1
      else df1.setCol "Rank" ((List.range df1.rows.length).map (fun i => Value.int (Int.ofNat i + 1)))
    let missing := REQUIRED_COLS.filter (fun c => !df2.cols.contains c)
    let msgs := if missing.isEmpty then ([] : List Msg)
      else [Msg.warning "Some required columns are missing after normalization"]
    let df3 := if df2.cols.contains "Drafted" then df2
      else df2.setCol "Drafted" (df2.rows.map (fun _ => Value.bool false))
    (df3, msgs)

/-- The empty fallback frame `pd.DataFrame(columns=list(REQUIRED_COLS) + ["Drafted"])`. -/
def emptyBoard : DataFrame := ⟨REQUIRED_COLS ++ ["Drafted"], []⟩

/-- `load_player_data` from `app.py`: the argument is the outcome of
`pd.read_csv` on the uploaded file (`Except.error` for any raised exception). -/
def load_player_data (csv : Except String DataFrame) : DataFrame × List Msg :=
  match csv with
  | Except.ok raw => normalize_columns raw
  | Except.error e => (emptyBoard, [Msg.error ("Error loading uploaded CSV: " ++ e)])

/-- Does `s` contain `pat` as a contiguous segment (Python `in` on strings)? -/
def startsWithSeg : List Char → List Char → Bool
  | [], _ => true
  | _ :: _, [] => false
  | p :: ps, c :: cs => p == c && startsWithSeg ps cs

/-- Segment containment used by the `"<your-" in url` check. -/
def containsSeg (pat : List Char) : List Char → Bool
  | [] => pat.isEmpty
  | c :: cs => startsWithSeg pat (c :: cs) || containsSeg pat cs

/-- The `if not url or "<your-" in url` guard of `load_default_rankings`. -/
def urlNotSet (url : String) : Bool :=
  url == "" || containsSeg "<your-".data url.data

/-- `load_default_rankings` from `app.py`: the second argument is the outcome
of the whole `try` block up to CSV parsing (frame plus the parsed
`Last-Modified` timestamp, which is `none` when absent or unparsable);
`Except.error` stands for any raised exception. -/
def load_default_rankings (url : String) (resp : Except String (DataFrame × Option Nat)) :
    (DataFrame × Option Nat) × List Msg :=
  if urlNotSet url then
    ((emptyBoard, Option.none), [Msg.info "Default rankings URL is not set"])
  else
    match resp with
    | Except.ok dflm =>
        let dm := normalize_columns dflm.1
        ((dm.1, dflm.2), dm.2)
    | Except.error e =>
        ((emptyBoard, Option.none),
         [Msg.warning ("Could not fetch default rankings from GitHub: " ++ e)])

/-- The `metadata` dict of one Sleeper pick, with the fields the app reads. -/
structure PickMeta where
  first_name : Option String
  last_name : Option String
deriving DecidableEq

/-- One pick of the Sleeper picks payload, with the fields the app reads. -/
structure Pick where
  metadata : Option PickMeta
  picked_by : Option String
deriving DecidableEq

/-- `fetch_sleeper_picks` from `app.py`: empty draft id short-circuits to `[]`;
the response argument is the outcome of the HTTP GET plus JSON decode, with
`Except.error` standing for any raised exception (e.g. `raise_for_status`). -/
def fetch_sleeper_picks (draft_id : String) (resp : Except String (List Pick)) :
    List Pick × List Msg :=
  if draft_id == "" then ([], [])
  else
    match resp with
    | Except.ok ps => (ps, [])
    | Except.error e => ([], [Msg.warning ("Could not fetch Sleeper draft data: " ++ e)])

/-- The full name `f"{first} {last}".strip()` built by `extract_drafted_names`
from one pick's metadata, with each part defaulted to `""` and stripped. -/
def pickFullName (p : Pick) : String :=
  let meta := p.metadata.getD ⟨Option.none, Option.none⟩
  let first := pyStripStr (meta.first_name.getD "")
  let last := pyStripStr (meta.last_name.getD "")
  pyStripStr (first ++ " " ++ last)

/-- `extract_drafted_names` from `app.py`: the nonempty full names of all picks. -/
def extract_drafted_names (picks : List Pick) : List String :=
  picks.filterMap (fun p =>
    let full := pickFullName p
    if full == "" then Option.none else some full)

/-- First-occurrence deduplication, modeling the cardinality of a Python set
built from a list (and `pandas.unique`, which keeps first occurrences). -/
def uniqueAux (seen : List String) : List String → List String
  | [] => []
  | x :: xs => if seen.contains x then uniqueAux seen xs else x :: uniqueAux (x :: seen) xs

/-- The distinct elements of a string list, first occurrences kept. -/
def uniqueFirst (l : List String) : List String := uniqueAux [] l

/-- The set `{p.get("picked_by") for p in picks if p.get("picked_by")}` of
`estimate_current_round`: distinct truthy `picked_by` values. -/
def draftTeams (picks : List Pick) : List String :=
  uniqueFirst ((picks.filterMap (fun p => p.picked_by)).filter (fun s => s != ""))

/-- `num_teams = max(1, len(teams))` of `estimate_current_round`. -/
def num_teams (picks : List Pick) : Nat :=
  max 1 (draftTeams picks).length

/-- `estimate_current_round` from `app.py`. -/
def estimate_current_round (picks : List Pick) : Nat :=
  if picks.isEmpty then 1
  else max 1 (picks.length / num_teams picks + 1)

/-- `df["Player"].isin(names)` at one cell: true exactly for a string cell
whose contents appear in `names`. -/
def isinNames (v : Option Value) (names : List String) : Bool :=
  match v with
  | some (Value.str s) => names.contains s
  | _ => false

/-- The module-level drafted marking of `app.py`:
`if not df.empty and "Player" in df.columns: df["Drafted"] = df["Player"].isin(drafted_names)`. -/
def markDrafted (df : DataFrame) (names : List String) : DataFrame :=
  if !df.isEmpty && df.cols.contains "Player" then
    df.setCol "Drafted" (df.rows.map (fun r => Value.bool (isinNames (df.cellR r "Player") names)))
  else df

/-- The module-level refresh-cycle glue of `app.py` around the drafted marking:
fetch picks (only when a draft id is set), extract drafted names, estimate the
round, and mark the rankings frame.  Returns the marked frame, the round
estimate, and the messages emitted by the fetch. -/
def draftCycle (df : DataFrame) (draft_id : String) (resp : Except String (List Pick)) :
    DataFrame × Nat × List Msg :=
  let pm := if draft_id != "" then fetch_sleeper_picks draft_id resp else ([], [])
  let drafted_names := if !pm.1.isEmpty then extract_drafted_names pm.1 else []
  let current_round := if !pm.1.isEmpty then estimate_current_round pm.1 else 1
  (markDrafted df drafted_names, current_round, pm.2)

/-- Lexicographic code-point comparison of character lists, modeling Python
string `<=`. -/
def charsLe : List Char → List Char → Bool
  | [], _ => true
  | _ :: _, [] => false
  | a :: as, b :: bs => if a = b then charsLe as bs else decide (a < b)

/-- Python string `<=` (code-point lexicographic). -/
def strLeB (a b : String) : Bool := charsLe a.data b.data

/-- Ordering tag on value constructors, used to totalize cell comparison;
NaN/None sorts last, as `sort_values` puts NaN last. -/
def Value.tag : Value → Nat
  | Value.bool _ => 0
  | Value.int _ => 1
  | Value.str _ => 2
  | Value.none => 3

/-- Total comparison on cell values: same-kind cells compare by contents,
different kinds by tag, NaN last (pandas `sort_values` semantics on the
homogeneous columns the app sorts). -/
def Value.leB : Value → Value → Bool
  | Value.bool a, Value.bool b => !a || b
  | Value.int a, Value.int b => decide (a ≤ b)
  | Value.str a, Value.str b => strLeB a b
  | Value.none, Value.none => true
  | v, w => decide (v.tag ≤ w.tag)

/-- Insert into a list sorted by the boolean comparison `le`. -/
def insertSorted (le : α → α → Bool) (a : α) : List α → List α
  | [] => [a]
  | b :: bs => if le a b then a :: b :: bs else b :: insertSorted le a bs

/-- Insertion sort by the boolean comparison `le`, modeling Python `sorted`
and pandas `sort_values(ascending=True)`. -/
def sortByB (le : α → α → Bool) : List α → List α
  | [] => []
  | a :: as => insertSorted le a (sortByB le as)

/-- Comparison of two rows by their `Rank` cell under the given columns, the
key used by `pos_df.sort_values(by="Rank", ascending=True)`. -/
def rankLeRow (cols : List String) (r s : List Value) : Bool :=
  Value.leB ((rowCell cols r "Rank").getD Value.none) ((rowCell cols s "Rank").getD Value.none)

/-- The fixed `display_cols` of `render_draft_board`. -/
def displayColsList : List String := ["Rank", "Player", "Position", "NFL Team", "Drafted"]

/-- The row predicate of `df[~df["Drafted"]]`: keep rows whose `Drafted` cell
is boolean `False`. -/
def draftedKeep (cols : List String) (r : List Value) : Bool :=
  match rowCell cols r "Drafted" with
  | some (Value.bool b) => !b
  | _ => false

/-- The outcome of `render_draft_board`: emitted messages and the per-position
tables that are displayed (position heading paired with its frame). -/
structure RenderResult where
  msgs : List Msg
  tables : List (String × DataFrame)

/-- The `df_view` of `render_draft_board`: `df[~df["Drafted"]]`, with the
fallback that adds an all-false `Drafted` column when it is absent. -/
def dfViewOf (df : DataFrame) : DataFrame :=
  if df.cols.contains "Drafted" then
    DataFrame.mk df.cols (df.rows.filter (fun r => draftedKeep df.cols r))
  else
    df.setCol "Drafted" (df.rows.map (fun _ => Value.bool false))

/-- The `df_display` of `render_draft_board`: the view projected to the fixed
display columns. -/
def dfDisplayOf (df : DataFrame) : DataFrame :=
  (dfViewOf df).selectCols displayColsList

/-- The `positions` of `render_draft_board`: distinct uppercased non-null
`Position` values of the display frame, in Python `sorted` order. -/
def positionsOf (df : DataFrame) : List String :=
  sortByB strLeB (uniqueFirst ((dfDisplayOf df).rows.filterMap (fun r =>
    match rowCell (dfDisplayOf df).cols r "Position" with
    | some Value.none => Option.none
    | some v => some (upperStr (valuePyStr v))
    | Option.none => Option.none)))

/-- The `pos_df` rows of `render_draft_board` for one position heading. -/
def posRowsOf (df : DataFrame) (pos : String) : List (List Value) :=
  (dfDisplayOf df).rows.filter (fun r =>
    upperStr (valuePyStr ((rowCell (dfDisplayOf df).cols r "Position").getD Value.none)) == pos)

/-- `render_draft_board` from `app.py`: guard on required columns, hide
drafted rows, project the display columns, and render one rank-sorted table
per (uppercased, non-null) position value in sorted order, skipping empty
groups.  Cell colors and styling are presentation only and are not modeled.
The error text elides the Python-formatted column list. -/
def render_draft_board (df : DataFrame) : RenderResult :=
  if !(REQUIRED_COLS.filter (fun c => !df.cols.contains c)).isEmpty then
    { msgs := [Msg.error "Cannot render board. Missing required columns"], tables := [] }
  else if (dfViewOf df).rows.isEmpty then
    { msgs := [Msg.info "No available players to display"], tables := [] }
  else
    { msgs := [],
      tables := (positionsOf df).filterMap (fun pos =>
        if (posRowsOf df pos).isEmpty then Option.none
        else some (pos,
          DataFrame.mk displayColsList (sortByB (rankLeRow displayColsList) (posRowsOf df pos)))) }

/-- Modelled from the spec: the name normalizer is not part of `src/app.py`
(the spec describes it across other revisions of the repository), so its NFD
decomposition step is modeled by a representative table mapping precomposed
accented letters to a base letter plus a combining mark. -/
def decompTable : List (Char × List Char) :=
  [('à', ['a', '̀']), ('á', ['a', '́']), ('â', ['a', '̂']), ('ä', ['a', '̈']),
   ('è', ['e', '̀']), ('é', ['e', '́']), ('ê', ['e', '̂']), ('ë', ['e', '̈']),
   ('í', ['i', '́']), ('ï', ['i', '̈']),
   ('ñ', ['n', '̃']),
   ('ó', ['o', '́']), ('ö', ['o', '̈']),
   ('ú', ['u', '́']), ('ü', ['u', '̈']),
   ('ç', ['c', '̧'])]

/-- NFD decomposition of one character per `decompTable`; characters without
an entry decompose to themselves. -/
def decomposeChar (c : Char) : List Char :=
  match decompTable.find? (fun e => e.1 == c) with
  | some e => e.2
  | Option.none => [c]

/-- Decompose every character of the list, in order. -/
def expandAll : List Char → List Char
  | [] => []
  | c :: cs => decomposeChar c ++ expandAll cs

/-- Is `c` a Unicode combining mark (the combining diacritical marks block)? -/
def isCombining (c : Char) : Bool :=
  0x300 ≤ c.toNat && c.toNat ≤ 0x36F

/-- Is `c` in `[a-z0-9 ]`, the alphabet the normalizer keeps? -/
def isAllowedChar (c : Char) : Bool :=
  (97 ≤ c.toNat && c.toNat ≤ 122) || (48 ≤ c.toNat && c.toNat ≤ 57) || c.toNat == 32

/-- Modelled from the spec: the character-level pipeline of the normalizer —
lowercase, NFD-decompose, drop combining marks, delete everything outside
`[a-z0-9 ]`. -/
def cleanChars (l : List Char) : List Char :=
  ((expandAll (l.map lowerChar)).filter (fun c => !isCombining c)).filter isAllowedChar

/-- One step of space-splitting: start a new field on a space, otherwise grow
the first field. -/
def splitStep (c : Char) (acc : List (List Char)) : List (List Char) :=
  if c = ' ' then [] :: acc
  else
    match acc with
    | [] => [[c]]
    | w :: ws => (c :: w) :: ws

/-- Split on spaces into (possibly empty) fields. -/
def splitFields (l : List Char) : List (List Char) :=
  l.foldr splitStep [[]]

/-- The nonempty space-separated words of a character list. -/
def words (l : List Char) : List (List Char) :=
  (splitFields l).filter (fun w => !w.isEmpty)

/-- Join words with single spaces. -/
def unwords : List (List Char) → List Char
  | [] => []
  | [w] => w
  | w :: ws => w ++ ' ' :: unwords ws

/-- Collapse internal whitespace runs and trim both ends. -/
def collapseTrim (l : List Char) : List Char := unwords (words l)

/-- Modelled from the spec: full normalizer pipeline on a character list. -/
def normalizeChars (l : List Char) : List Char := collapseTrim (cleanChars l)

/-- Modelled from the spec: `normalize(raw)`, the name normalizer that is out
of `src/app.py` — lowercase, Unicode-decompose and drop combining marks,
delete characters outside `[a-z0-9 ]`, collapse internal whitespace, trim. -/
def normalizeName (s : String) : String := ⟨normalizeChars s.data⟩

instance (df : DataFrame) : Decidable df.wf :=
  inferInstanceAs (Decidable (∀ r ∈ df.rows, r.length = df.cols.length))


theorem contains_iff_mem' {l : List String} {s : String} : l.contains s = true ↔ s ∈ l :=
  List.elem_iff

theorem colIdx_lt_length {cols : List String} {name : String} {j : Nat}
    (h : colIdx cols name = some j) : j < cols.length := by
  induction cols generalizing j with
  | nil => simp [colIdx] at h
  | cons c cs ih =>
      simp only [colIdx] at h
      by_cases hc : (c == name) = true
      · simp [hc] at h
        simp [← h]
      · simp [hc] at h
        obtain ⟨j', hj', rfl⟩ := h
        have := ih hj'
        simp only [List.length_cons]
        omega

theorem colIdx_get {cols : List String} {name : String} {j : Nat}
    (h : colIdx cols name = some j) : cols[j]? = some name := by
  induction cols generalizing j with
  | nil => simp [colIdx] at h
  | cons c cs ih =>
      simp only [colIdx] at h
      by_cases hc : (c == name) = true
      · simp [hc] at h
        subst h
        simpa using (beq_iff_eq.mp hc)
      · simp [hc] at h
        obtain ⟨j', hj', rfl⟩ := h
        simpa using ih hj'

theorem colIdx_eq_none_iff {cols : List String} {name : String} :
    colIdx cols name = Option.none ↔ name ∉ cols := by
  induction cols with
  | nil => simp [colIdx]
  | cons c cs ih =>
      simp only [colIdx, List.mem_cons]
      by_cases hc : (c == name) = true
      · simp [hc, beq_iff_eq.mp hc]
      · have hne : ¬ name = c := fun he => by simp [he] at hc
        simp [hc, ih, hne]

theorem colIdx_mem_isSome {cols : List String} {name : String} (h : name ∈ cols) :
    ∃ j, colIdx cols name = some j := by
  cases hc : colIdx cols name with
  | none => exact absurd (colIdx_eq_none_iff.mp hc) (by simp [h])
  | some j => exact ⟨j, rfl⟩

theorem colIdx_append_of_none {cols cols' : List String} {name : String}
    (h : colIdx cols name = Option.none) :
    colIdx (cols ++ cols') name = (colIdx cols' name).map (· + cols.length) := by
  induction cols with
  | nil => simp [Option.map_id']
  | cons c cs ih =>
      simp only [colIdx] at h
      by_cases hc : (c == name) = true
      · simp [hc] at h
      · have h' : colIdx cs name = Option.none := by simpa [hc] using h
        simp only [List.cons_append, colIdx, hc, Bool.false_eq_true, if_false, List.append_eq,
          ih h', List.length_cons]
        cases colIdx cols' name with
        | none => rfl
        | some k => show some (k + cs.length + 1) = some (k + (cs.length + 1)); rfl

theorem colIdx_append_left {cols : List String} {name : String} {j : Nat}
    (h : colIdx cols name = some j) (cols' : List String) :
    colIdx (cols ++ cols') name = some j := by
  induction cols generalizing j with
  | nil => simp [colIdx] at h
  | cons c cs ih =>
      simp only [colIdx] at h
      by_cases hc : (c == name) = true
      · simp [hc] at h
        simp [colIdx, hc, ← h]
      · simp [hc] at h
        obtain ⟨j', hj', rfl⟩ := h
        simp [colIdx, hc, ih hj']

theorem mem_of_getElem?_some {l : List α} {i : Nat} {a : α} (h : l[i]? = some a) : a ∈ l := by
  induction l generalizing i with
  | nil => simp at h
  | cons x xs ih =>
      cases i with
      | zero => simp at h; simp [h]
      | succ n =>
          simp only [List.getElem?_cons_succ] at h
          exact List.mem_cons_of_mem _ (ih h)

theorem mem_setCol_cols (df : DataFrame) (name : String) (vals : List Value) :
    name ∈ (df.setCol name vals).cols := by
  unfold DataFrame.setCol
  cases hj : colIdx df.cols name with
  | none => simp
  | some j => exact mem_of_getElem?_some (colIdx_get hj)

theorem setCol_rows_getElem? (df : DataFrame) (name : String) (vals : List Value)
    (hv : vals.length = df.rows.length) (i : Nat) :
    (df.setCol name vals).rows[i]? =
      match colIdx df.cols name, df.rows[i]?, vals[i]? with
      | some j, some r, some v => some (r.set j v)
      | Option.none, some r, some v => some (r ++ [v])
      | _, _, _ => Option.none := by
  unfold DataFrame.setCol
  cases hj : colIdx df.cols name with
  | none =>
      simp only [List.getElem?_zipWith]
      cases hr : df.rows[i]? with
      | none =>
          have : vals[i]? = Option.none := by
            rw [List.getElem?_eq_none]
            rw [List.getElem?_eq_none_iff] at hr
            omega
          simp [this]
      | some r => cases hv' : vals[i]? <;> simp
  | some j =>
      simp only [List.getElem?_zipWith]
      cases hr : df.rows[i]? with
      | none =>
          have : vals[i]? = Option.none := by
            rw [List.getElem?_eq_none]
            rw [List.getElem?_eq_none_iff] at hr
            omega
          simp [this]
      | some r => cases hv' : vals[i]? <;> simp

theorem setCol_cell_self (df : DataFrame) (hwf : df.wf) (name : String) (vals : List Value)
    (hv : vals.length = df.rows.length) (i : Nat) (h : i < df.rows.length) :
    (df.setCol name vals).cell i name = vals[i]? := by
  obtain ⟨v, hfv⟩ : ∃ v, vals[i]? = some v := by
    cases hx : vals[i]? with
    | none =>
        rw [List.getElem?_eq_none_iff] at hx
        omega
    | some v => exact ⟨v, rfl⟩
  have hr : df.rows[i]? = some df.rows[i] := List.getElem?_eq_getElem h
  have hmem : df.rows[i] ∈ df.rows := List.getElem_mem h
  have hlen : (df.rows[i]).length = df.cols.length := hwf _ hmem
  unfold DataFrame.cell
  rw [setCol_rows_getElem? df name _ hv i]
  cases hj : colIdx df.cols name with
  | some j =>
      have hjlt : j < df.cols.length := colIdx_lt_length hj
      rw [hr, hfv]
      simp only [Option.some_bind]
      simp only [DataFrame.setCol, hj, rowCell]
      simp only [Option.some_bind]
      exact List.getElem?_set_self (by omega)
  | none =>
      rw [hr, hfv]
      dsimp only
      simp only [DataFrame.setCol, hj, rowCell]
      rw [colIdx_append_of_none hj]
      have h0 : colIdx [name] name = some 0 := by simp [colIdx]
      rw [h0]
      show (df.rows[i] ++ [v])[0 + df.cols.length]? = some v
      rw [List.getElem?_append_right (by omega)]
      have h1 : 0 + df.cols.length - (df.rows[i]).length = 0 := by omega
      rw [h1]
      rfl

theorem setCol_cell_other (df : DataFrame) (hwf : df.wf) {name name' : String} (hne : name' ≠ name)
    (vals : List Value) (hv : vals.length = df.rows.length) (i : Nat) :
    (df.setCol name vals).cell i name' = df.cell i name' := by
  unfold DataFrame.cell
  rw [setCol_rows_getElem? df name vals hv i]
  cases hj : colIdx df.cols name with
  | some j =>
      cases hr : df.rows[i]? with
      | none =>
          have hvn : vals[i]? = Option.none := by
            rw [List.getElem?_eq_none]
            rw [List.getElem?_eq_none_iff] at hr
            omega
          rw [hvn]
          rfl
      | some r =>
          have hi : i < df.rows.length := by
            by_contra hc
            rw [List.getElem?_eq_none (by omega)] at hr
            exact Option.noConfusion hr
          obtain ⟨v, hvv⟩ : ∃ v, vals[i]? = some v := by
            cases hx : vals[i]? with
            | none =>
                rw [List.getElem?_eq_none_iff] at hx
                omega
            | some v => exact ⟨v, rfl⟩
          rw [hvv]
          simp only [Option.some_bind]
          simp only [DataFrame.setCol, hj, rowCell]
          cases hk : colIdx df.cols name' with
          | none => rfl
          | some j' =>
              simp only [Option.some_bind]
              have hjj : j' ≠ j := by
                intro he
                have h1 := colIdx_get hj
                have h2 := colIdx_get hk
                rw [he, h1] at h2
                have : name = name' := by simpa using h2
                exact hne this.symm
              exact List.getElem?_set_ne (fun he => hjj he.symm)
  | none =>
      cases hr : df.rows[i]? with
      | none =>
          have hvn : vals[i]? = Option.none := by
            rw [List.getElem?_eq_none]
            rw [List.getElem?_eq_none_iff] at hr
            omega
          rw [hvn]
          rfl
      | some r =>
          have hi : i < df.rows.length := by
            by_contra hc
            rw [List.getElem?_eq_none (by omega)] at hr
            exact Option.noConfusion hr
          have hrmem : r ∈ df.rows := mem_of_getElem?_some hr
          have hrlen : r.length = df.cols.length := hwf _ hrmem
          obtain ⟨v, hvv⟩ : ∃ v, vals[i]? = some v := by
            cases hx : vals[i]? with
            | none =>
                rw [List.getElem?_eq_none_iff] at hx
                omega
            | some v => exact ⟨v, rfl⟩
          rw [hvv]
          simp only [Option.some_bind]
          simp only [DataFrame.setCol, hj, rowCell]
          cases hk : colIdx df.cols name' with
          | some j' =>
              rw [colIdx_append_left hk]
              simp only [Option.some_bind]
              exact List.getElem?_append_left (by have := colIdx_lt_length hk; omega)
          | none =>
              rw [colIdx_append_of_none hk]
              have hnn : colIdx [name] name' = Option.none := by
                simp only [colIdx]
                have : (name == name') = false := by
                  simp only [beq_eq_false_iff_ne]
                  exact fun he => hne he.symm
                simp [this]
              rw [hnn]
              rfl

theorem mem_drafted_ensure (d : DataFrame) :
    "Drafted" ∈ (if d.cols.contains "Drafted" then d
      else d.setCol "Drafted" (d.rows.map (fun _ => Value.bool false))).cols := by
  split
  · next hdr => exact contains_iff_mem'.mp hdr
  · exact mem_setCol_cols _ _ _

/-- C9: `estimate_current_round` always returns an integer at least 1, its
divisor `num_teams` is forced to at least 1 (so the division cannot be by
zero), and the empty picks list yields exactly round 1. -/
theorem estimate_round_safe :
    (∀ picks : List Pick, 1 ≤ estimate_current_round picks ∧ 1 ≤ num_teams picks) ∧
    estimate_current_round [] = 1 := by
  refine ⟨fun picks => ⟨?_, ?_⟩, rfl⟩
  · unfold estimate_current_round
    split
    · exact Nat.le_refl 1
    · exact Nat.le_max_left 1 _
  · exact Nat.le_max_left 1 _

/-- C10: `normalize_columns` returns a frame with no rows unchanged, emitting
no message and adding no column; only a frame with rows is guaranteed to come
back with a `Drafted` column. -/
theorem normalize_columns_empty_behavior :
    ∀ df : DataFrame,
      (df.rows = [] → normalize_columns df = (df, [])) ∧
      (df.rows ≠ [] → df.cols ≠ [] → "Drafted" ∈ (normalize_columns df).1.cols) := by
  intro df
  constructor
  · intro h
    unfold normalize_columns
    rw [if_pos]
    unfold DataFrame.isEmpty
    simp [h]
  · intro h1 h2
    unfold normalize_columns
    rw [if_neg (by unfold DataFrame.isEmpty; simp [h1, h2])]
    exact mem_drafted_ensure _

/-- Witness for C10: a column-only frame passes through unchanged, and a
one-row frame gains a `Drafted` column. -/
theorem normalize_columns_empty_behavior_witness :
    normalize_columns ⟨["Player"], []⟩ = (⟨["Player"], []⟩, []) ∧
    "Drafted" ∈ (normalize_columns ⟨["Player"], [[Value.str "ann"]]⟩).1.cols :=
  ⟨(normalize_columns_empty_behavior ⟨["Player"], []⟩).1 rfl,
   (normalize_columns_empty_behavior ⟨["Player"], [[Value.str "ann"]]⟩).2
     (by decide) (by decide)⟩

/-- C4: every collaborator failure is converted at the boundary into
empty/default data plus a diagnostic message: a failed CSV read yields the
empty board frame (required columns plus `Drafted`) with an error, a failed
rankings fetch yields the same with a warning, and a failed picks fetch
yields an empty pick list with a warning; each function returns normally. -/
theorem collaborator_failures_defaulted (e url draft_id : String)
    (hurl : urlNotSet url = false) (hid : draft_id ≠ "") :
    load_player_data (Except.error e) =
      (emptyBoard, [Msg.error ("Error loading uploaded CSV: " ++ e)]) ∧
    load_default_rankings url (Except.error e) =
      ((emptyBoard, Option.none),
       [Msg.warning ("Could not fetch default rankings from GitHub: " ++ e)]) ∧
    fetch_sleeper_picks draft_id (Except.error e) =
      ([], [Msg.warning ("Could not fetch Sleeper draft data: " ++ e)]) ∧
    emptyBoard.rows = [] ∧ emptyBoard.cols = REQUIRED_COLS ++ ["Drafted"] := by
  refine ⟨rfl, ?_, ?_, rfl, rfl⟩
  · unfold load_default_rankings
    rw [if_neg (by simp [hurl])]
  · unfold fetch_sleeper_picks
    rw [if_neg (by simp [hid])]

/-- Witness for C4 at a concrete failure. -/
theorem collaborator_failures_defaulted_witness :
    fetch_sleeper_picks "123" (Except.error "boom") =
      ([], [Msg.warning ("Could not fetch Sleeper draft data: " ++ "boom")]) :=
  (collaborator_failures_defaulted "boom" "https://example.com/r.csv" "123"
    (by decide) (by decide)).2.2.1

/-- C5: if a required ranking column is missing from the frame,
`render_draft_board` surfaces a user-visible error and halts: no table is
rendered. -/
theorem missing_columns_halts_render (df : DataFrame)
    (h : ∃ c ∈ REQUIRED_COLS, c ∉ df.cols) :
    (render_draft_board df).tables = [] ∧
      ∃ s, Msg.error s ∈ (render_draft_board df).msgs := by
  obtain ⟨c, hc, hnotin⟩ := h
  have hcmem : c ∈ REQUIRED_COLS.filter (fun c => !df.cols.contains c) := by
    rw [List.mem_filter]
    refine ⟨hc, ?_⟩
    rw [Bool.not_eq_true']
    rw [← Bool.not_eq_true]
    intro hct
    exact hnotin (contains_iff_mem'.mp hct)
  have hne : (REQUIRED_COLS.filter (fun c => !df.cols.contains c)).isEmpty = false := by
    rw [List.isEmpty_eq_false]
    exact List.ne_nil_of_mem hcmem
  unfold render_draft_board
  rw [if_pos (by simpa using ⟨c, hc, hnotin⟩)]
  exact ⟨rfl, "Cannot render board. Missing required columns", List.mem_singleton.mpr rfl⟩

/-- Witness for C5: a frame missing every required column. -/
theorem missing_columns_halts_render_witness :
    (render_draft_board ⟨["Foo"], [[Value.str "x"]]⟩).tables = [] ∧
      ∃ s, Msg.error s ∈ (render_draft_board ⟨["Foo"], [[Value.str "x"]]⟩).msgs :=
  missing_columns_halts_render _ ⟨"Rank", by decide, by decide⟩

theorem mem_zipWith {f : α → β → γ} {as : List α} {bs : List β} {c : γ}
    (h : c ∈ List.zipWith f as bs) : ∃ a ∈ as, ∃ b ∈ bs, c = f a b := by
  induction as generalizing bs with
  | nil => simp at h
  | cons a as ih =>
      cases bs with
      | nil => simp at h
      | cons b bs =>
          simp only [List.zipWith_cons_cons, List.mem_cons] at h
          rcases h with h | h
          · exact ⟨a, List.mem_cons_self .., b, List.mem_cons_self .., h⟩
          · obtain ⟨a', ha', b', hb', he⟩ := ih h
            exact ⟨a', List.mem_cons_of_mem _ ha', b', List.mem_cons_of_mem _ hb', he⟩

theorem setCol_wf (df : DataFrame) (hwf : df.wf) (name : String) (vals : List Value) :
    (df.setCol name vals).wf := by
  unfold DataFrame.setCol DataFrame.wf
  cases colIdx df.cols name with
  | some j =>
      intro r hr
      obtain ⟨a, ha, b, hb, he⟩ := mem_zipWith hr
      subst he
      simp [hwf a ha]
  | none =>
      intro r hr
      obtain ⟨a, ha, b, hb, he⟩ := mem_zipWith hr
      subst he
      simp [hwf a ha]

theorem setCol_rows_length (df : DataFrame) (name : String) (vals : List Value)
    (hv : vals.length = df.rows.length) :
    (df.setCol name vals).rows.length = df.rows.length := by
  unfold DataFrame.setCol
  cases colIdx df.cols name <;> simp [hv]

theorem isinNames_nil (v : Option Value) : isinNames v [] = false := by
  unfold isinNames
  cases v with
  | none => rfl
  | some val => cases val <;> rfl

theorem markDrafted_cell (df : DataFrame) (hwf : df.wf) (hp : "Player" ∈ df.cols)
    (names : List String) (i : Nat) (h : i < df.rows.length) :
    (markDrafted df names).cell i "Drafted" =
      some (Value.bool (isinNames (rowCell df.cols df.rows[i] "Player") names)) := by
  have hrows : df.rows ≠ [] := by
    intro he
    rw [he] at h
    simp at h
  unfold markDrafted
  rw [if_pos]
  · have := setCol_cell_self df hwf "Drafted"
      (df.rows.map (fun r => Value.bool (isinNames (df.cellR r "Player") names)))
      (by simp) i h
    rw [this, List.getElem?_map, List.getElem?_eq_getElem h]
    rfl
  · unfold DataFrame.isEmpty
    have hcols : df.cols ≠ [] := List.ne_nil_of_mem hp
    simp [hrows, hcols, hp]

theorem markDrafted_rows_length (df : DataFrame) (names : List String) :
    (markDrafted df names).rows.length = df.rows.length := by
  unfold markDrafted
  split
  · exact setCol_rows_length _ _ _ (by simp)
  · rfl

/-- C3: when the picks fetch raises (e.g. HTTP 500 via `raise_for_status`),
the cycle proceeds normally: the pick list is empty, a visible warning is
emitted, and every row of the marked frame has `Drafted = False`. -/
theorem picks_failure_zero_drafted (df : DataFrame) (draft_id e : String)
    (hwf : df.wf) (hp : "Player" ∈ df.cols) (hid : draft_id ≠ "") :
    (∀ i, i < (draftCycle df draft_id (Except.error e)).1.rows.length →
        (draftCycle df draft_id (Except.error e)).1.cell i "Drafted" = some (Value.bool false)) ∧
    (draftCycle df draft_id (Except.error e)).2.2 =
      [Msg.warning ("Could not fetch Sleeper draft data: " ++ e)] ∧
    (fetch_sleeper_picks draft_id (Except.error e)).1 = [] := by
  have hfetch : fetch_sleeper_picks draft_id (Except.error e) =
      ([], [Msg.warning ("Could not fetch Sleeper draft data: " ++ e)]) := by
    unfold fetch_sleeper_picks
    rw [if_neg (by simp [hid])]
  have hcycle : draftCycle df draft_id (Except.error e) =
      (markDrafted df [], 1, [Msg.warning ("Could not fetch Sleeper draft data: " ++ e)]) := by
    unfold draftCycle
    rw [if_pos (by simp [hid])]
    rw [hfetch]
    rfl
  rw [hcycle]
  refine ⟨?_, rfl, by rw [hfetch]⟩
  intro i hlen
  rw [markDrafted_rows_length] at hlen
  rw [markDrafted_cell df hwf hp [] i hlen]
  rw [isinNames_nil]

/-- Witness for C3: one ranked player, failing picks endpoint. -/
theorem picks_failure_zero_drafted_witness :
    (draftCycle ⟨["Player"], [[Value.str "Bob Smith"]]⟩ "42" (Except.error "500")).1.cell
      0 "Drafted" = some (Value.bool false) :=
  (picks_failure_zero_drafted ⟨["Player"], [[Value.str "Bob Smith"]]⟩ "42" "500"
    (by decide) (by decide) (by decide)).1 0 (by decide)

theorem candidates_rank_keys :
    ∀ kt ∈ candidates, kt.2 = "Rank" → kt.1 ∈ (["rank", "overall", "ecr"] : List String) := by
  decide

theorem lowerMapLookup_mem_and_key {cols : List String} {k c : String}
    (h : lowerMapLookup cols k = some c) : c ∈ cols ∧ lowerTrim c = k := by
  unfold lowerMapLookup at h
  refine ⟨List.mem_reverse.mp (List.mem_of_find?_eq_some h), ?_⟩
  have := List.find?_some h
  simpa using this

theorem mem_renameMap {cols : List String} {e : String × String} (h : e ∈ renameMap cols) :
    e.1 ∈ cols ∧ ∃ kt ∈ candidates, kt.2 = e.2 ∧ lowerTrim e.1 = kt.1 := by
  unfold renameMap at h
  rw [List.mem_filterMap] at h
  obtain ⟨kt, hkt, hmap⟩ := h
  cases hl : lowerMapLookup cols kt.1 with
  | none => rw [hl] at hmap; simp at hmap
  | some c0 =>
      rw [hl] at hmap
      have he : (c0, kt.2) = e := by simpa using hmap
      obtain ⟨hmem, hkey⟩ := lowerMapLookup_mem_and_key hl
      subst he
      exact ⟨hmem, kt, hkt, rfl, hkey⟩

theorem applyRename_not_mem_rank (cols : List String)
    (h : ∀ c ∈ cols, lowerTrim c ∉ (["rank", "overall", "ecr"] : List String)) :
    "Rank" ∉ applyRename cols := by
  intro hmem
  unfold applyRename at hmem
  rw [List.mem_map] at hmem
  obtain ⟨c, hc, hfc⟩ := hmem
  cases hfind : (renameMap cols).find? (fun e => e.1 == c) with
  | none =>
      rw [hfind] at hfc
      have hcrank : c = "Rank" := hfc
      have hrk : lowerTrim "Rank" ∈ (["rank", "overall", "ecr"] : List String) := by decide
      exact h c hc (by rw [hcrank]; exact hrk)
  | some e =>
      rw [hfind] at hfc
      have he2 : e.2 = "Rank" := hfc
      have hmem' := List.mem_of_find?_eq_some hfind
      obtain ⟨h1, kt, hkt, hkt2, hlow⟩ := mem_renameMap hmem'
      have hk1 : kt.1 ∈ (["rank", "overall", "ecr"] : List String) :=
        candidates_rank_keys kt hkt (by rw [hkt2, he2])
      exact h e.1 h1 (by rw [hlow]; exact hk1)

/-- C6: a non-empty frame with no rank-like column (no header lowering to
`rank`, `overall` or `ecr`) gets a sequential `Rank` column from
`normalize_columns`: row `i` receives the integer `i + 1`, so the ranks are
`1, 2, ..., n` in input row order and every assigned rank is at least 1. -/
theorem sequential_rank_assignment (df : DataFrame) (hwf : df.wf)
    (hrows : df.rows ≠ []) (hcols : df.cols ≠ [])
    (hnorank : ∀ c ∈ df.cols, lowerTrim c ∉ (["rank", "overall", "ecr"] : List String)) :
    ∀ i, i < df.rows.length →
      (normalize_columns df).1.cell i "Rank" = some (Value.int (Int.ofNat i + 1)) := by
  intro i hi
  have hnotempty : ¬ df.isEmpty = true := by
    unfold DataFrame.isEmpty
    simp [hrows, hcols]
  have hnr : "Rank" ∉ applyRename df.cols := applyRename_not_mem_rank df.cols hnorank
  have hnrc : (applyRename df.cols).contains "Rank" = false := by
    rw [← Bool.not_eq_true]
    rw [contains_iff_mem']
    exact hnr
  have hwf1 : (DataFrame.mk (applyRename df.cols) df.rows).wf := by
    intro r hr
    have := hwf r hr
    simpa [applyRename] using this
  unfold normalize_columns
  rw [if_neg hnotempty]
  dsimp only
  rw [hnrc]
  simp only [Bool.false_eq_true, if_false]
  set df2 := (DataFrame.mk (applyRename df.cols) df.rows).setCol "Rank"
    ((List.range df.rows.length).map (fun i => Value.int (Int.ofNat i + 1))) with hdf2
  have hwf2 : df2.wf := setCol_wf _ hwf1 _ _
  have hlen2 : df2.rows.length = df.rows.length := setCol_rows_length _ _ _ (by simp)
  have hcell2 : df2.cell i "Rank" = some (Value.int (Int.ofNat i + 1)) := by
    rw [hdf2]
    rw [setCol_cell_self _ hwf1 "Rank" _ (by simp) i hi]
    rw [List.getElem?_map, List.getElem?_range hi]
    rfl
  split
  · exact hcell2
  · rw [setCol_cell_other df2 hwf2 (by decide) _ (by simp) i]
    exact hcell2

/-- Witness for C6: a two-row frame with only a `Player` column. -/
theorem sequential_rank_assignment_witness :
    (normalize_columns ⟨["Player"], [[Value.str "a"], [Value.str "b"]]⟩).1.cell 1 "Rank" =
      some (Value.int (Int.ofNat 1 + 1)) :=
  sequential_rank_assignment ⟨["Player"], [[Value.str "a"], [Value.str "b"]]⟩
    (by decide) (by decide) (by decide) (by decide) 1 (by decide)

theorem mem_extract_drafted_names {picks : List Pick} {s : String} :
    s ∈ extract_drafted_names picks ↔
      ∃ p ∈ picks, pickFullName p = s ∧ pickFullName p ≠ "" := by
  unfold extract_drafted_names
  rw [List.mem_filterMap]
  constructor
  · rintro ⟨p, hp, hf⟩
    dsimp only at hf
    by_cases hfull : (pickFullName p == "") = true
    · rw [if_pos hfull] at hf
      exact absurd hf (by simp)
    · rw [if_neg hfull] at hf
      have hs : pickFullName p = s := by simpa using hf
      exact ⟨p, hp, hs, by simpa using hfull⟩
  · rintro ⟨p, hp, hs, hne⟩
    refine ⟨p, hp, ?_⟩
    dsimp only
    rw [if_neg (by simpa using hne), hs]

/-- The statement of claim C1 for one refresh cycle: after the drafted
marking, a row is flagged drafted exactly when its player name, after
normalization, equals the normalized full name of some fetched pick. -/
def C1Claim (df : DataFrame) (draft_id : String) (picks : List Pick) : Prop :=
  ∀ i, i < df.rows.length →
    ((draftCycle df draft_id (Except.ok picks)).1.cell i "Drafted" = some (Value.bool true) ↔
      ∃ p ∈ picks, ∃ s, df.cell i "Player" = some (Value.str s) ∧
        normalizeName s = normalizeName (pickFullName p))

/-- C1 is false of the code: the marking joins on raw strings, so the ranked
player "D.K. Metcalf" is not flagged drafted although the pick named
"DK Metcalf" has the same normalized name. -/
theorem drafted_marking_not_normalized :
    ¬ C1Claim ⟨["Player"], [[Value.str "D.K. Metcalf"]]⟩ "42"
      [⟨some ⟨some "DK", some "Metcalf"⟩, Option.none⟩] := by
  intro h
  have h0 := h 0 (by decide)
  have hdrafted := h0.mpr ⟨⟨some ⟨some "DK", some "Metcalf"⟩, Option.none⟩, by decide,
    "D.K. Metcalf", by decide, by decide⟩
  exact absurd hdrafted (by decide)

/-- C1 amended: the join is by exact string equality, not normalized names —
a row of a well-formed rankings frame is flagged drafted exactly when its
`Player` cell equals, character for character, the nonempty stripped full
name of some fetched pick. -/
theorem drafted_marking_exact_name_iff (df : DataFrame) (draft_id : String) (picks : List Pick)
    (hwf : df.wf) (hp : "Player" ∈ df.cols) (hid : draft_id ≠ "") :
    ∀ i, i < df.rows.length →
      ((draftCycle df draft_id (Except.ok picks)).1.cell i "Drafted" = some (Value.bool true) ↔
        ∃ p ∈ picks, df.cell i "Player" = some (Value.str (pickFullName p)) ∧
          pickFullName p ≠ "") := by
  have h1 : (draftCycle df draft_id (Except.ok picks)).1 =
      markDrafted df (extract_drafted_names picks) := by
    unfold draftCycle fetch_sleeper_picks
    rw [if_pos (by simp [hid]), if_neg (by simp [hid])]
    dsimp only
    cases picks with
    | nil => rfl
    | cons p ps => rfl
  intro i hi
  have hcell : df.cell i "Player" = rowCell df.cols df.rows[i] "Player" := by
    unfold DataFrame.cell
    rw [List.getElem?_eq_getElem hi]
    rfl
  rw [h1, markDrafted_cell df hwf hp _ i hi, hcell]
  simp only [Option.some.injEq, Value.bool.injEq]
  cases hcv : rowCell df.cols df.rows[i] "Player" with
  | none =>
      simp only [isinNames]
      constructor
      · intro hfalse
        exact absurd hfalse (by simp)
      · rintro ⟨p, hp', hps, hne⟩
        exact absurd hps (by simp)
  | some v =>
      cases v with
      | str s =>
          simp only [isinNames]
          rw [contains_iff_mem', mem_extract_drafted_names]
          constructor
          · rintro ⟨p, hp', hs, hne⟩
            exact ⟨p, hp', by rw [hs], hne⟩
          · rintro ⟨p, hp', hps, hne⟩
            have hse : s = pickFullName p := by simpa using hps
            exact ⟨p, hp', hse.symm, hne⟩
      | int n =>
          simp only [isinNames]
          constructor
          · intro hfalse
            exact absurd hfalse (by simp)
          · rintro ⟨p, hp', hps, hne⟩
            exact absurd hps (by simp)
      | bool b =>
          simp only [isinNames]
          constructor
          · intro hfalse
            exact absurd hfalse (by simp)
          · rintro ⟨p, hp', hps, hne⟩
            exact absurd hps (by simp)
      | none =>
          simp only [isinNames]
          constructor
          · intro hfalse
            exact absurd hfalse (by simp)
          · rintro ⟨p, hp', hps, hne⟩
            exact absurd hps (by simp)

/-- Witness for amended C1: an exact-name match is flagged drafted. -/
theorem drafted_marking_exact_name_iff_witness :
    (draftCycle ⟨["Player"], [[Value.str "Bob Smith"]]⟩ "42"
      (Except.ok [⟨some ⟨some "Bob", some "Smith"⟩, Option.none⟩])).1.cell 0 "Drafted" =
      some (Value.bool true) :=
  (drafted_marking_exact_name_iff ⟨["Player"], [[Value.str "Bob Smith"]]⟩ "42"
      [⟨some ⟨some "Bob", some "Smith"⟩, Option.none⟩] (by decide) (by decide) (by decide)
      0 (by decide)).mpr
    ⟨⟨some ⟨some "Bob", some "Smith"⟩, Option.none⟩, by decide, by decide, by decide⟩

theorem find?_eq_some_of_unique {α : Type} {p : α → Bool} {l : List α} {a : α}
    (hmem : a ∈ l) (hpa : p a = true) (huniq : ∀ b ∈ l, p b = true → b = a) :
    l.find? p = some a := by
  induction l with
  | nil => simp at hmem
  | cons x xs ih =>
      by_cases hx : p x = true
      · have hxa : x = a := huniq x (List.mem_cons_self ..) hx
        rw [List.find?_cons_of_pos _ hx, hxa]
      · rw [List.find?_cons_of_neg _ hx]
        rcases List.mem_cons.mp hmem with rfl | hmem'
        · exact absurd hpa hx
        · exact ih hmem' (fun b hb hpb => huniq b (List.mem_cons_of_mem _ hb) hpb)

/-- The per-column renaming claim C7 attributes to `normalize_columns`: the
target name a header should get, looking its lowered, stripped form up among
the case-insensitive synonyms, as the spec describes the fuzzy matching. -/
def canonOf (c : String) : String :=
  match candidates.find? (fun kt => kt.1 == lowerTrim c) with
  | some kt => kt.2
  | Option.none => c

/-- The statement of claim C7: in the output of `normalize_columns`, every
column of the input frame has been renamed to its synonym target (or kept
when it has none), position by position. -/
def C7Claim (df : DataFrame) : Prop :=
  ∀ i, ∀ h : i < df.cols.length,
    ((normalize_columns df).1).cols[i]? = some (canonOf (df.cols.get ⟨i, h⟩))

theorem renameFun_eq_canonOf (cols : List String) (hnodup : (cols.map lowerTrim).Nodup)
    {c : String} (hc : c ∈ cols) :
    (match (renameMap cols).find? (fun e => e.1 == c) with
     | some e => e.2
     | Option.none => c) = canonOf c := by
  unfold canonOf
  cases hfind : candidates.find? (fun kt => kt.1 == lowerTrim c) with
  | none =>
      have hrn : (renameMap cols).find? (fun e => e.1 == c) = Option.none := by
        rw [List.find?_eq_none]
        intro e he hec
        have hece : e.1 = c := by simpa using hec
        obtain ⟨h1, kt', hkt', hkt2, hlow⟩ := mem_renameMap he
        rw [List.find?_eq_none] at hfind
        refine hfind kt' hkt' ?_
        rw [hece] at hlow
        simp [hlow]
      rw [hrn]
  | some kt =>
      have hkmem : kt ∈ candidates := List.mem_of_find?_eq_some hfind
      have hkey : kt.1 = lowerTrim c := by simpa using List.find?_some hfind
      have hlml : lowerMapLookup cols kt.1 = some c := by
        unfold lowerMapLookup
        apply find?_eq_some_of_unique (List.mem_reverse.mpr hc) (by simp [hkey])
        intro b hb hpb
        have hbc : lowerTrim b = kt.1 := by simpa using hpb
        exact List.inj_on_of_nodup_map hnodup (List.mem_reverse.mp hb) hc (by rw [hbc, hkey])
      have hmm : (c, kt.2) ∈ renameMap cols := by
        unfold renameMap
        rw [List.mem_filterMap]
        refine ⟨kt, hkmem, ?_⟩
        rw [hlml]
        rfl
      have hcand_nodup : (candidates.map Prod.fst).Nodup := by decide
      have hrn : (renameMap cols).find? (fun e => e.1 == c) = some (c, kt.2) := by
        apply find?_eq_some_of_unique hmm (by simp)
        intro e he hec
        have hece : e.1 = c := by simpa using hec
        obtain ⟨h1, kt', hkt', hkt2, hlow⟩ := mem_renameMap he
        have hk1 : kt'.1 = kt.1 := by
          rw [← hlow, hece, hkey]
        have hkk : kt' = kt := List.inj_on_of_nodup_map hcand_nodup hkt' hkmem hk1
        obtain ⟨e1, e2⟩ := e
        simp only at hece hkt2
        rw [hece, ← hkt2, hkk]
      rw [hrn]

theorem applyRename_getElem (cols : List String)
    (hnodup : (cols.map lowerTrim).Nodup) (i : Nat) (h : i < cols.length) :
    (applyRename cols)[i]? = some (canonOf cols[i]) := by
  unfold applyRename
  rw [List.getElem?_map, List.getElem?_eq_getElem h]
  show some _ = some _
  dsimp only
  rw [renameFun_eq_canonOf cols hnodup (List.getElem_mem h)]

theorem setCol_cols_getElem? (df : DataFrame) (name : String) (vals : List Value)
    (i : Nat) (h : i < df.cols.length) :
    (df.setCol name vals).cols[i]? = df.cols[i]? := by
  unfold DataFrame.setCol
  cases hj : colIdx df.cols name with
  | some j => rfl
  | none => exact List.getElem?_append_left h

theorem setCol_cols_length_ge (df : DataFrame) (name : String) (vals : List Value) :
    df.cols.length ≤ (df.setCol name vals).cols.length := by
  unfold DataFrame.setCol
  cases colIdx df.cols name with
  | some j => exact Nat.le_refl _
  | none => simp

/-- C7 fails as stated: with headers `["Name", "NAME"]` (both lowering to the
synonym `name`), the `lower_map` dict comprehension keeps only the later
column per lowered key, so the column `"Name"` is not renamed to `"Player"`. -/
theorem column_rename_duplicate_lower_cex :
    ¬ C7Claim ⟨["Name", "NAME"], [[Value.str "x", Value.str "y"]]⟩ := by
  intro h
  exact absurd (h 0 (by decide)) (by decide)

/-- C7 amended: for a frame with rows whose headers have pairwise-distinct
lowercased, stripped forms, `normalize_columns` renames every column whose
lowered form is a known synonym to the corresponding required name and
leaves columns with no matching synonym unchanged, position by position. -/
theorem column_rename_caseinsensitive (df : DataFrame) (hrows : df.rows ≠ [])
    (hnodup : (df.cols.map lowerTrim).Nodup) :
    ∀ i, ∀ h : i < df.cols.length,
      ((normalize_columns df).1).cols[i]? = some (canonOf (df.cols.get ⟨i, h⟩)) := by
  intro i h
  have hcols : df.cols ≠ [] := by
    intro he
    rw [he] at h
    simp at h
  have hnotempty : ¬ df.isEmpty = true := by
    unfold DataFrame.isEmpty
    simp [hrows, hcols]
  have hlen : i < (applyRename df.cols).length := by
    unfold applyRename
    simpa using h
  have hbase : (applyRename df.cols)[i]? = some (canonOf (df.cols.get ⟨i, h⟩)) := by
    rw [List.get_eq_getElem]
    exact applyRename_getElem df.cols hnodup i h
  unfold normalize_columns
  rw [if_neg hnotempty]
  dsimp only
  split
  · split
    · exact hbase
    · rw [setCol_cols_getElem? _ _ _ i hlen]
      exact hbase
  · split
    · rw [setCol_cols_getElem? _ _ _ i hlen]
      exact hbase
    · rw [setCol_cols_getElem? _ _ _ i
        (lt_of_lt_of_le hlen (setCol_cols_length_ge ⟨applyRename df.cols, df.rows⟩ "Rank"
          ((List.range df.rows.length).map (fun i => Value.int (Int.ofNat i + 1)))))]
      rw [setCol_cols_getElem? _ _ _ i hlen]
      exact hbase

/-- Witness for amended C7: `name` and `POS` headers are renamed to `Player`
and `Position`. -/
theorem column_rename_caseinsensitive_witness :
    ((normalize_columns ⟨["name", "POS"], [[Value.str "a", Value.str "b"]]⟩).1).cols[0]? =
      some (canonOf "name") :=
  column_rename_caseinsensitive ⟨["name", "POS"], [[Value.str "a", Value.str "b"]]⟩
    (by decide) (by decide) 0 (by decide)

theorem mem_insertSorted {α : Type} (le : α → α → Bool) (a x : α) (l : List α) :
    x ∈ insertSorted le a l ↔ x = a ∨ x ∈ l := by
  induction l with
  | nil => simp [insertSorted]
  | cons b bs ih =>
      unfold insertSorted
      split
      · simp [List.mem_cons]
      · simp only [List.mem_cons, ih]
        tauto

theorem mem_sortByB {α : Type} (le : α → α → Bool) (x : α) (l : List α) :
    x ∈ sortByB le l ↔ x ∈ l := by
  induction l with
  | nil => simp [sortByB]
  | cons a as ih =>
      unfold sortByB
      rw [mem_insertSorted, ih, List.mem_cons]

theorem pairwise_insertSorted {α : Type} (le : α → α → Bool)
    (htot : ∀ a b, le a b = true ∨ le b a = true)
    (htrans : ∀ a b c, le a b = true → le b c = true → le a c = true)
    (a : α) (l : List α) (hl : List.Pairwise (fun x y => le x y = true) l) :
    List.Pairwise (fun x y => le x y = true) (insertSorted le a l) := by
  induction l with
  | nil => simp [insertSorted]
  | cons b bs ih =>
      unfold insertSorted
      rcases List.pairwise_cons.mp hl with ⟨hb, hbs⟩
      split
      · next hab =>
          rw [List.pairwise_cons]
          refine ⟨?_, hl⟩
          intro x hx
          rcases List.mem_cons.mp hx with rfl | hx'
          · exact hab
          · exact htrans a b x hab (hb x hx')
      · next hab =>
          have hba : le b a = true := by
            rcases htot a b with h | h
            · exact absurd h hab
            · exact h
          rw [List.pairwise_cons]
          refine ⟨?_, ih hbs⟩
          intro x hx
          rcases (mem_insertSorted le a x bs).mp hx with rfl | hx'
          · exact hba
          · exact hb x hx'

theorem pairwise_sortByB {α : Type} (le : α → α → Bool)
    (htot : ∀ a b, le a b = true ∨ le b a = true)
    (htrans : ∀ a b c, le a b = true → le b c = true → le a c = true)
    (l : List α) :
    List.Pairwise (fun x y => le x y = true) (sortByB le l) := by
  induction l with
  | nil => simp [sortByB]
  | cons a as ih =>
      unfold sortByB
      exact pairwise_insertSorted le htot htrans a _ ih

theorem charsLe_total : ∀ a b : List Char, charsLe a b = true ∨ charsLe b a = true := by
  intro a
  induction a with
  | nil => intro b; left; rfl
  | cons x xs ih =>
      intro b
      cases b with
      | nil => right; rfl
      | cons y ys =>
          unfold charsLe
          by_cases hxy : x = y
          · subst hxy
            rw [if_pos rfl, if_pos rfl]
            exact ih ys
          · rw [if_neg hxy, if_neg (Ne.symm hxy)]
            rcases lt_or_gt_of_ne hxy with h | h
            · left; exact decide_eq_true h
            · right; exact decide_eq_true h

theorem charsLe_trans : ∀ a b c : List Char,
    charsLe a b = true → charsLe b c = true → charsLe a c = true := by
  intro a
  induction a with
  | nil => intro b c _ _; rfl
  | cons x xs ih =>
      intro b c hab hbc
      cases b with
      | nil => simp [charsLe] at hab
      | cons y ys =>
          cases c with
          | nil => simp [charsLe] at hbc
          | cons z zs =>
              unfold charsLe at hab hbc ⊢
              by_cases hxy : x = y
              · subst hxy
                rw [if_pos rfl] at hab
                by_cases hyz : x = z
                · subst hyz
                  rw [if_pos rfl] at hbc ⊢
                  exact ih ys zs hab hbc
                · rw [if_neg hyz] at hbc ⊢
                  exact hbc
              · rw [if_neg hxy] at hab
                have hxy' : x < y := of_decide_eq_true hab
                by_cases hyz : y = z
                · subst hyz
                  rw [if_neg hxy]
                  exact decide_eq_true hxy'
                · rw [if_neg hyz] at hbc
                  have hyz' : y < z := of_decide_eq_true hbc
                  have hxz : x < z := lt_trans hxy' hyz'
                  rw [if_neg (ne_of_lt hxz)]
                  exact decide_eq_true hxz

theorem Value_leB_total : ∀ v w : Value, Value.leB v w = true ∨ Value.leB w v = true := by
  intro v w
  cases v <;> cases w <;>
    first
      | (left; rfl)
      | (right; rfl)
      | skip
  case bool.bool a b => cases a <;> cases b <;> simp [Value.leB]
  case int.int m n =>
      rcases Int.le_total m n with h | h
      · left; exact decide_eq_true h
      · right; exact decide_eq_true h
  case str.str s t => exact charsLe_total s.data t.data

theorem Value_leB_trans : ∀ u v w : Value,
    Value.leB u v = true → Value.leB v w = true → Value.leB u w = true := by
  have hfalse : ∀ (p : Prop), false = true → p := fun p h => absurd h (by simp)
  intro u v w huv hvw
  cases u with
  | bool a =>
    cases w with
    | bool c =>
        cases v with
        | bool b =>
            revert huv hvw
            cases a <;> cases b <;> cases c <;> simp [Value.leB]
        | int n => exact hfalse _ hvw
        | str s => exact hfalse _ hvw
        | none => exact hfalse _ hvw
    | int k => rfl
    | str t => rfl
    | none => rfl
  | int m =>
    cases w with
    | bool c =>
        cases v with
        | bool b => exact hfalse _ huv
        | int n => exact hfalse _ hvw
        | str s => exact hfalse _ hvw
        | none => exact hfalse _ hvw
    | int k =>
        cases v with
        | bool b => exact hfalse _ huv
        | int n =>
            revert huv hvw
            simp only [Value.leB, decide_eq_true_eq]
            omega
        | str s => exact hfalse _ hvw
        | none => exact hfalse _ hvw
    | str t => rfl
    | none => rfl
  | str s =>
    cases w with
    | bool c =>
        cases v with
        | bool b => exact hfalse _ huv
        | int n => exact hfalse _ huv
        | str s' => exact hfalse _ hvw
        | none => exact hfalse _ hvw
    | int k =>
        cases v with
        | bool b => exact hfalse _ huv
        | int n => exact hfalse _ huv
        | str s' => exact hfalse _ hvw
        | none => exact hfalse _ hvw
    | str t =>
        cases v with
        | bool b => exact hfalse _ huv
        | int n => exact hfalse _ huv
        | str s' => exact charsLe_trans s.data s'.data t.data huv hvw
        | none => exact hfalse _ hvw
    | none => rfl
  | none =>
    cases w with
    | bool c =>
        cases v with
        | bool b => exact hfalse _ huv
        | int n => exact hfalse _ huv
        | str s' => exact hfalse _ huv
        | none => exact hfalse _ hvw
    | int k =>
        cases v with
        | bool b => exact hfalse _ huv
        | int n => exact hfalse _ huv
        | str s' => exact hfalse _ huv
        | none => exact hfalse _ hvw
    | str t =>
        cases v with
        | bool b => exact hfalse _ huv
        | int n => exact hfalse _ huv
        | str s' => exact hfalse _ huv
        | none => exact hfalse _ hvw
    | none => rfl

theorem draftedKeep_eq (cols : List String) (r : List Value) (h : draftedKeep cols r = true) :
    rowCell cols r "Drafted" = some (Value.bool false) := by
  unfold draftedKeep at h
  cases hc : rowCell cols r "Drafted" with
  | none => rw [hc] at h; simp at h
  | some v =>
      rw [hc] at h
      cases v with
      | bool b =>
          cases b with
          | false => rfl
          | true => simp at h
      | str s => simp at h
      | int n => simp at h
      | none => simp at h

theorem dfViewOf_drafted (df : DataFrame) (hwf : df.wf) :
    ∀ r0 ∈ (dfViewOf df).rows,
      rowCell (dfViewOf df).cols r0 "Drafted" = some (Value.bool false) := by
  intro r0 h
  unfold dfViewOf at h ⊢
  by_cases hc : df.cols.contains "Drafted" = true
  · rw [if_pos hc] at h ⊢
    exact draftedKeep_eq df.cols r0 (List.mem_filter.mp h).2
  · rw [if_neg hc] at h ⊢
    have hnone : colIdx df.cols "Drafted" = Option.none := by
      rw [colIdx_eq_none_iff]
      intro hmem
      exact hc (contains_iff_mem'.mpr hmem)
    unfold DataFrame.setCol at h ⊢
    rw [hnone] at h ⊢
    obtain ⟨a, ha, b, hb, he⟩ := mem_zipWith h
    obtain ⟨a', ha', hbe⟩ := List.mem_map.mp hb
    subst he
    subst hbe
    unfold rowCell
    rw [colIdx_append_of_none hnone]
    have h0 : colIdx ["Drafted"] "Drafted" = some 0 := by simp [colIdx]
    rw [h0]
    show (a ++ [Value.bool false])[0 + df.cols.length]? = some (Value.bool false)
    have hal : a.length = df.cols.length := hwf a ha
    rw [List.getElem?_append_right (by omega)]
    have h1 : 0 + df.cols.length - a.length = 0 := by omega
    rw [h1]
    rfl

/-- C8: every displayed table of `render_draft_board` contains only rows whose
`Drafted` flag is false — a drafted row never appears — and within each
displayed position group the rows are sorted by their `Rank` cell in
ascending order. -/
theorem render_hides_drafted_sorted (df : DataFrame) (hwf : df.wf) :
    ∀ t ∈ (render_draft_board df).tables,
      (∀ r ∈ t.2.rows, rowCell t.2.cols r "Drafted" = some (Value.bool false)) ∧
      List.Pairwise (fun a b => rankLeRow t.2.cols a b = true) t.2.rows := by
  intro t ht
  unfold render_draft_board at ht
  by_cases hA : (!(REQUIRED_COLS.filter (fun c => !df.cols.contains c)).isEmpty) = true
  · rw [if_pos hA] at ht
    simp at ht
  · rw [if_neg hA] at ht
    by_cases hB : (dfViewOf df).rows.isEmpty = true
    · rw [if_pos hB] at ht
      simp at ht
    · rw [if_neg hB] at ht
      dsimp only at ht
      rw [List.mem_filterMap] at ht
      obtain ⟨pos, hpos, heq⟩ := ht
      split at heq
      · exact absurd heq (by simp)
      · have ht2 : t = (pos, DataFrame.mk displayColsList
            (sortByB (rankLeRow displayColsList) (posRowsOf df pos))) := (Option.some.inj heq).symm
        subst ht2
        dsimp only
        constructor
        · intro r hr
          have hr1 : r ∈ posRowsOf df pos := (mem_sortByB _ _ _).mp hr
          have hr2 : r ∈ (dfDisplayOf df).rows := (List.mem_filter.mp hr1).1
          unfold dfDisplayOf DataFrame.selectCols at hr2
          dsimp only at hr2
          rw [List.mem_map] at hr2
          obtain ⟨r0, hr0, hre⟩ := hr2
          subst hre
          have hsel : rowCell displayColsList
              (displayColsList.map (fun c => (rowCell (dfViewOf df).cols r0 c).getD Value.none))
              "Drafted" = some ((rowCell (dfViewOf df).cols r0 "Drafted").getD Value.none) := rfl
          rw [hsel, dfViewOf_drafted df hwf r0 hr0]
          rfl
        · exact pairwise_sortByB (rankLeRow displayColsList)
            (fun a b => Value_leB_total _ _)
            (fun a b c => Value_leB_trans _ _ _) (posRowsOf df pos)

/-- Witness for C8: the displayed QB table of a concrete board hides the
drafted row and its first row has `Drafted = False`. -/
theorem render_hides_drafted_sorted_witness :
    rowCell ("QB", DataFrame.mk displayColsList
        [[Value.int 1, Value.str "A", Value.str "QB", Value.str "KC", Value.bool false],
         [Value.int 2, Value.str "B", Value.str "qb", Value.str "KC", Value.bool false]]).2.cols
      [Value.int 1, Value.str "A", Value.str "QB", Value.str "KC", Value.bool false]
      "Drafted" = some (Value.bool false) :=
  (render_hides_drafted_sorted ⟨["Rank", "Player", "Position", "NFL Team", "Drafted"],
      [[Value.int 2, Value.str "B", Value.str "qb", Value.str "KC", Value.bool false],
       [Value.int 1, Value.str "A", Value.str "QB", Value.str "KC", Value.bool false],
       [Value.int 3, Value.str "C", Value.str "WR", Value.str "SEA", Value.bool true]]⟩
      (by decide) _ (by decide)).1 _ (by decide)

theorem map_id_of {α : Type} {f : α → α} {l : List α} (h : ∀ c ∈ l, f c = c) :
    l.map f = l := by
  induction l with
  | nil => rfl
  | cons x xs ih =>
      rw [List.map_cons, h x (List.mem_cons_self ..), ih (fun c hc => h c (List.mem_cons_of_mem _ hc))]

theorem expandAll_id {l : List Char} (h : ∀ c ∈ l, decomposeChar c = [c]) :
    expandAll l = l := by
  induction l with
  | nil => rfl
  | cons x xs ih =>
      unfold expandAll
      rw [h x (List.mem_cons_self ..), ih (fun c hc => h c (List.mem_cons_of_mem _ hc))]
      rfl

theorem lowerChar_allowed {c : Char} (h : isAllowedChar c = true) : lowerChar c = c := by
  simp only [isAllowedChar, Bool.or_eq_true, Bool.and_eq_true, decide_eq_true_eq,
    beq_iff_eq] at h
  unfold lowerChar
  rw [if_neg (by omega)]

theorem decomposeChar_allowed {c : Char} (h : isAllowedChar c = true) :
    decomposeChar c = [c] := by
  simp only [isAllowedChar, Bool.or_eq_true, Bool.and_eq_true, decide_eq_true_eq,
    beq_iff_eq] at h
  unfold decomposeChar
  have htab : ∀ e ∈ decompTable, 224 ≤ e.1.toNat := by decide
  have hfind : decompTable.find? (fun e => e.1 == c) = Option.none := by
    rw [List.find?_eq_none]
    intro e he hec
    have hee : e.1 = c := by simpa using hec
    have := htab e he
    rw [hee] at this
    omega
  rw [hfind]

theorem not_isCombining_allowed {c : Char} (h : isAllowedChar c = true) :
    isCombining c = false := by
  simp only [isAllowedChar, Bool.or_eq_true, Bool.and_eq_true, decide_eq_true_eq,
    beq_iff_eq] at h
  unfold isCombining
  have h1 : ¬ (768 ≤ c.toNat) := by omega
  simp [h1]

theorem space_allowed : isAllowedChar ' ' = true := by decide

theorem cleanChars_allowed {l : List Char} : ∀ c ∈ cleanChars l, isAllowedChar c = true := by
  intro c hc
  unfold cleanChars at hc
  exact (List.mem_filter.mp hc).2

theorem cleanChars_id {l : List Char} (h : ∀ c ∈ l, isAllowedChar c = true) :
    cleanChars l = l := by
  unfold cleanChars
  have h1 : l.map lowerChar = l := map_id_of (fun c hc => lowerChar_allowed (h c hc))
  rw [h1]
  have h2 : expandAll l = l := expandAll_id (fun c hc => decomposeChar_allowed (h c hc))
  rw [h2]
  have h3 : l.filter (fun c => !isCombining c) = l := by
    rw [List.filter_eq_self]
    intro c hc
    rw [not_isCombining_allowed (h c hc)]
    rfl
  rw [h3]
  rw [List.filter_eq_self]
  exact h

theorem splitFields_cons_space (t : List Char) :
    splitFields (' ' :: t) = [] :: splitFields t := by
  simp [splitFields, splitStep]

theorem splitStep_space (acc : List (List Char)) : splitStep ' ' acc = [] :: acc := by
  simp [splitStep]

theorem splitStep_nospace_nil {c : Char} (h : c ≠ ' ') : splitStep c [] = [[c]] := by
  simp [splitStep, h]

theorem splitStep_nospace_cons {c : Char} (h : c ≠ ' ') (f : List Char)
    (fs : List (List Char)) : splitStep c (f :: fs) = (c :: f) :: fs := by
  simp [splitStep, h]

theorem foldr_splitStep_nospace {w : List Char} (h : ∀ c ∈ w, c ≠ ' ')
    (f : List Char) (fs : List (List Char)) :
    w.foldr splitStep (f :: fs) = (w ++ f) :: fs := by
  induction w with
  | nil => rfl
  | cons x xs ih =>
      rw [List.foldr_cons, ih (fun c hc => h c (List.mem_cons_of_mem _ hc)),
        splitStep_nospace_cons (h x (List.mem_cons_self ..))]
      rfl

theorem splitFields_chars {l : List Char} :
    ∀ w ∈ splitFields l, ∀ c ∈ w, c ≠ ' ' ∧ c ∈ l := by
  induction l with
  | nil =>
      intro w hw c hc
      simp only [splitFields, List.foldr_nil] at hw
      rw [List.mem_singleton] at hw
      subst hw
      simp at hc
  | cons x xs ih =>
      intro w hw c hc
      have hsf : splitFields (x :: xs) = splitStep x (splitFields xs) := rfl
      rw [hsf] at hw
      by_cases hx : x = ' '
      · subst hx
        rw [splitStep_space] at hw
        rcases List.mem_cons.mp hw with rfl | hw'
        · simp at hc
        · obtain ⟨h1, h2⟩ := ih w hw' c hc
          exact ⟨h1, List.mem_cons_of_mem _ h2⟩
      · cases hacc : splitFields xs with
        | nil =>
            rw [hacc, splitStep_nospace_nil hx] at hw
            rw [List.mem_singleton] at hw
            subst hw
            rw [List.mem_singleton] at hc
            subst hc
            exact ⟨hx, List.mem_cons_self ..⟩
        | cons f fs =>
            rw [hacc, splitStep_nospace_cons hx] at hw
            rcases List.mem_cons.mp hw with rfl | hw'
            · rcases List.mem_cons.mp hc with rfl | hc'
              · exact ⟨hx, List.mem_cons_self ..⟩
              · have hf : f ∈ splitFields xs := by
                  rw [hacc]
                  exact List.mem_cons_self ..
                obtain ⟨h1, h2⟩ := ih f hf c hc'
                exact ⟨h1, List.mem_cons_of_mem _ h2⟩
            · have hwmem : w ∈ splitFields xs := by
                rw [hacc]
                exact List.mem_cons_of_mem _ hw'
              obtain ⟨h1, h2⟩ := ih w hwmem c hc
              exact ⟨h1, List.mem_cons_of_mem _ h2⟩

theorem words_mem_props {l : List Char} :
    ∀ w ∈ words l, w ≠ [] ∧ ∀ c ∈ w, c ≠ ' ' ∧ c ∈ l := by
  intro w hw
  unfold words at hw
  obtain ⟨hmem, hne⟩ := List.mem_filter.mp hw
  refine ⟨?_, splitFields_chars w hmem⟩
  intro he
  subst he
  simp at hne

theorem words_unwords {ws : List (List Char)}
    (h : ∀ w ∈ ws, w ≠ [] ∧ ∀ c ∈ w, c ≠ ' ') :
    words (unwords ws) = ws := by
  induction ws with
  | nil => rfl
  | cons w ws ih =>
      obtain ⟨hne, hsp⟩ := h w (List.mem_cons_self ..)
      cases ws with
      | nil =>
          show words w = [w]
          unfold words
          have hsf : splitFields w = [w] := by
            show w.foldr splitStep [[]] = [w]
            rw [foldr_splitStep_nospace hsp [] []]
            rw [List.append_nil]
          rw [hsf]
          have : w.isEmpty = false := by
            cases w with
            | nil => exact absurd rfl hne
            | cons c cs => rfl
          simp [List.filter, this]
      | cons w' rest =>
          have hun : unwords (w :: w' :: rest) = w ++ ' ' :: unwords (w' :: rest) := rfl
          rw [hun]
          unfold words
          have hsf : splitFields (w ++ ' ' :: unwords (w' :: rest)) =
              w :: splitFields (unwords (w' :: rest)) := by
            show (w ++ ' ' :: unwords (w' :: rest)).foldr splitStep [[]] =
              w :: splitFields (unwords (w' :: rest))
            rw [List.foldr_append]
            have hsp' : (' ' :: unwords (w' :: rest)).foldr splitStep [[]] =
                [] :: splitFields (unwords (w' :: rest)) := rfl
            rw [hsp', foldr_splitStep_nospace hsp, List.append_nil]
          rw [hsf]
          have hwe : w.isEmpty = false := by
            cases w with
            | nil => exact absurd rfl hne
            | cons c cs => rfl
          rw [List.filter_cons]
          rw [hwe]
          show w :: words (unwords (w' :: rest)) = w :: w' :: rest
          rw [ih (fun v hv => h v (List.mem_cons_of_mem _ hv))]

theorem mem_unwords {ws : List (List Char)} :
    ∀ c ∈ unwords ws, c = ' ' ∨ ∃ w ∈ ws, c ∈ w := by
  induction ws with
  | nil => intro c hc; simp [unwords] at hc
  | cons w ws ih =>
      intro c hc
      cases ws with
      | nil =>
          right
          exact ⟨w, List.mem_cons_self .., hc⟩
      | cons w' rest =>
          have hun : unwords (w :: w' :: rest) = w ++ ' ' :: unwords (w' :: rest) := rfl
          rw [hun] at hc
          rcases List.mem_append.mp hc with hcw | hcr
          · exact Or.inr ⟨w, List.mem_cons_self .., hcw⟩
          · rcases List.mem_cons.mp hcr with rfl | hcu
            · exact Or.inl rfl
            · rcases ih c hcu with h | ⟨v, hv, hcv⟩
              · exact Or.inl h
              · exact Or.inr ⟨v, List.mem_cons_of_mem _ hv, hcv⟩

theorem collapseTrim_allowed {l : List Char} (h : ∀ c ∈ l, isAllowedChar c = true) :
    ∀ c ∈ collapseTrim l, isAllowedChar c = true := by
  intro c hc
  unfold collapseTrim at hc
  rcases mem_unwords c hc with rfl | ⟨w, hw, hcw⟩
  · exact space_allowed
  · exact h c ((words_mem_props w hw).2 c hcw).2

theorem collapseTrim_idem (l : List Char) :
    collapseTrim (collapseTrim l) = collapseTrim l := by
  unfold collapseTrim
  rw [words_unwords (fun w hw =>
    ⟨(words_mem_props w hw).1, fun c hc => ((words_mem_props w hw).2 c hc).1⟩)]

theorem normalizeChars_idem (l : List Char) :
    normalizeChars (normalizeChars l) = normalizeChars l := by
  unfold normalizeChars
  rw [cleanChars_id (collapseTrim_allowed (fun c hc => cleanChars_allowed c hc))]
  exact collapseTrim_idem _

/-- C2: the name normalizer is idempotent — normalizing an already normalized
string changes nothing, for every input string. -/
theorem normalize_idempotent (s : String) :
    normalizeName (normalizeName s) = normalizeName s := by
  show (⟨normalizeChars (String.data ⟨normalizeChars s.data⟩)⟩ : String) =
    (⟨normalizeChars s.data⟩ : String)
  rw [show String.data ⟨normalizeChars s.data⟩ = normalizeChars s.data from rfl]
  rw [normalizeChars_idem]
